import Mathlib

/-!
Verification development for the hexpxl pixelisation tool (src/main.rs).

The program remaps every pixel of a raster image to the color of the
center of the square or hexagonal tile containing it.  All pixel
arithmetic in the source is Rust `u32` arithmetic: division by zero
panics, and subtraction / addition / multiplication wrap modulo 2^32 in
release builds.  We embed the two tilers (`square_pixelisation` and
`hexagon_pixelisation`) as Lean functions over `Nat`, making the 2^32
wrap explicit and modelling the division-by-zero panic with `Option`.

The hexagonal tiler's floating-point preamble
(`inner_radius = (R * cos(pi/6)) as u32`, `gap = (3R/2) as u32`) is kept
outside the embedding: the functions below take the already-truncated
`inner_radius` and `gap` as natural-number arguments, which is where all
the integer logic of the source lives.
-/

/-- The modulus of Rust `u32` arithmetic. -/
def M32 : ℕ := 4294967296

/-- Wrapping `u32` addition. -/
def wadd (a b : ℕ) : ℕ := (a + b) % M32

/-- Wrapping `u32` subtraction (two's-complement wrap-around on underflow). -/
def wsub (a b : ℕ) : ℕ := (a + (M32 - b % M32)) % M32

/-- Wrapping `u32` multiplication. -/
def wmul (a b : ℕ) : ℕ := (a * b) % M32

/-- The `sqr!` macro of the source under wrapping `u32` arithmetic. -/
def wsqr (a : ℕ) : ℕ := wmul a a

/-- A raster image: dimensions plus a pixel-color lookup.  The 4-channel
8-bit color is abstracted to a single natural number; the tilers never
inspect colors, they only move them around. -/
structure Image where
  width : ℕ
  height : ℕ
  pixel : ℕ → ℕ → ℕ

/-- The `ColoredPoint` struct of the source. -/
structure ColoredPoint where
  x : ℕ
  y : ℕ
  color : ℕ
deriving DecidableEq

/-- Agreement of two images: same dimensions and same color at every
in-bounds coordinate. -/
def Image.EqOn (a b : Image) : Prop :=
  a.width = b.width ∧ a.height = b.height ∧
    ∀ x y, x < b.width → y < b.height → a.pixel x y = b.pixel x y

/-- The per-axis square-tile mapping `x / radius * radius` of
`square_pixelisation`. -/
def squareMap (radius x : ℕ) : ℕ := x / radius * radius

/-- `square_pixelisation` from the source: every output pixel takes the
color of the top-left corner of its `radius`-sized square tile. -/
def square_pixelisation (img : Image) (radius : ℕ) : Image :=
  { width := img.width
    height := img.height
    pixel := fun x y => img.pixel (squareMap radius x) (squareMap radius y) }

/-- The two candidate grid positions `(corner_a_idx, corner_b_idx)` of
`hexagon_pixelisation`: bracketing column indices `x / r` and
`x / r + 1`, bracketing row indices `y / g` and `y / g + 1`, paired so
that each candidate has column and row indices of matching parity. -/
def hexCandidates (r g x y : ℕ) : (ℕ × ℕ) × (ℕ × ℕ) :=
  if ((x / r % 2 == 0) == (y / g % 2 == 0)) then
    ((x / r, y / g), (wadd (x / r) 1, wadd (y / g) 1))
  else
    ((x / r, wadd (y / g) 1), (wadd (x / r) 1, y / g))

/-- The candidate centers in pixel space:
`(corner_a_x, corner_a_y)` and `(corner_b_x, corner_b_y)`. -/
def hexCorners (r g x y : ℕ) : (ℕ × ℕ) × (ℕ × ℕ) :=
  ((wmul (hexCandidates r g x y).1.1 r, wmul (hexCandidates r g x y).1.2 g),
   (wmul (hexCandidates r g x y).2.1 r, wmul (hexCandidates r g x y).2.2 g))

/-- The squared distances `(d1, d2)` computed by the source, in wrapping
`u32` arithmetic. -/
def hexDistances (r g x y : ℕ) : ℕ × ℕ :=
  (wadd (wsqr (wsub (hexCorners r g x y).1.1 x)) (wsqr (wsub (hexCorners r g x y).1.2 y)),
   wadd (wsqr (wsub (hexCorners r g x y).2.1 x)) (wsqr (wsub (hexCorners r g x y).2.2 y)))

/-- The selected center `(x_index, y_index)`: `corner_a` when `d1 < d2`,
otherwise `corner_b`. -/
def hexSelected (r g x y : ℕ) : ℕ × ℕ :=
  if (hexDistances r g x y).1 < (hexDistances r g x y).2 then (hexCorners r g x y).1
  else (hexCorners r g x y).2

/-- The coordinate at which the source image is sampled:
`(x_index.min(width - 1), y_index.min(height - 1))`. -/
def hexSampleCoord (r g w h x y : ℕ) : ℕ × ℕ :=
  (min (hexSelected r g x y).1 (w - 1), min (hexSelected r g x y).2 (h - 1))

/-- The color assigned to output pixel `(x, y)` by the hexagonal tiler. -/
def hexPixelColor (r g : ℕ) (img : Image) (x y : ℕ) : ℕ :=
  img.pixel (hexSampleCoord r g img.width img.height x y).1
    (hexSampleCoord r g img.width img.height x y).2

/-- The body of the parallel map of `hexagon_pixelisation`.  The `u32`
divisions `x / inner_radius` and `y / gap` panic when the divisor is
zero; the panic is modelled by `none`. -/
def hexPoint (r g : ℕ) (img : Image) (p : ℕ × ℕ) : Option ColoredPoint :=
  if r = 0 ∨ g = 0 then none
  else some ⟨p.1, p.2, hexPixelColor r g img p.1 p.2⟩

/-- The coordinate list of `hexagon_pixelisation`: all `(x, y)` with
`x` in `0..width` (outer) and `y` in `0..height` (inner), so the point
`(x, y)` sits at list position `x * height + y`. -/
def coordinates (width height : ℕ) : List (ℕ × ℕ) :=
  (List.range width).flatMap fun x => (List.range height).map fun y => (x, y)

/-- `hexagon_pixelisation` from the source, over precomputed
`inner_radius` and `gap`: map `hexPoint` over the coordinate list (a
panic anywhere aborts the run, hence `mapM` into `Option`), then
reassemble the output by reading entry `y + x * height` (a wrapping
`u32` sum in the source). -/
def hexagon_pixelisation (img : Image) (inner_radius gap : ℕ) : Option Image :=
  ((coordinates img.width img.height).mapM (hexPoint inner_radius gap img)).map fun pixels =>
    { width := img.width
      height := img.height
      pixel := fun x y => (pixels.getD ((y + x * img.height) % M32) ⟨0, 0, 0⟩).color }

/-- The true, sign-correct squared Euclidean distance from pixel
`(x, y)` to the center of the candidate at grid position `c`, following
the spec's words ("compute squared Euclidean distance from the pixel to
each of the two candidate centers"), with no 2^32 wrap. -/
def trueSqDist (r g x y : ℕ) (c : ℕ × ℕ) : ℤ :=
  ((c.1 * r : ℕ) - (x : ℤ)) ^ 2 + ((c.2 * g : ℕ) - (y : ℤ)) ^ 2

/-- C4: `square_pixelisation` maps `x` to `floor(x / radius) * radius`,
which is at most `x` and is the largest multiple of `radius` not
exceeding `x`. -/
theorem square_map_spec (radius x : ℕ) (h : 1 ≤ radius) :
    squareMap radius x = x / radius * radius ∧
    squareMap radius x ≤ x ∧
    radius ∣ squareMap radius x ∧
    ∀ m : ℕ, radius ∣ m → m ≤ x → m ≤ squareMap radius x := by
  refine ⟨rfl, Nat.div_mul_le_self x radius, ⟨x / radius, (mul_comm _ _)⟩, ?_⟩
  rintro m ⟨k, rfl⟩ hm
  have hk : k ≤ x / radius := by
    rw [Nat.le_div_iff_mul_le h]
    calc k * radius = radius * k := mul_comm _ _
    _ ≤ x := hm
  calc radius * k = k * radius := mul_comm _ _
  _ ≤ x / radius * radius := Nat.mul_le_mul_right radius hk

theorem square_map_spec_witness :
    1 ≤ 3 ∧ (squareMap 3 7 = 7 / 3 * 3 ∧ squareMap 3 7 ≤ 7 ∧ 3 ∣ squareMap 3 7 ∧
      ∀ m : ℕ, 3 ∣ m → m ≤ 7 → m ≤ squareMap 3 7) :=
  ⟨by decide, square_map_spec 3 7 (by decide)⟩

/-- C8: the square-tile mapping is idempotent on each axis: applying
`x / radius * radius` to its own output returns it unchanged. -/
theorem square_map_idempotent (radius x y : ℕ) (h : 1 ≤ radius) :
    squareMap radius (squareMap radius x) = squareMap radius x ∧
    squareMap radius (squareMap radius y) = squareMap radius y := by
  have key : ∀ v : ℕ, squareMap radius (squareMap radius v) = squareMap radius v := by
    intro v
    unfold squareMap
    rw [Nat.mul_div_cancel (v / radius) h]
  exact ⟨key x, key y⟩

theorem square_map_idempotent_witness :
    1 ≤ 4 ∧ (squareMap 4 (squareMap 4 13) = squareMap 4 13 ∧
      squareMap 4 (squareMap 4 9) = squareMap 4 9) :=
  ⟨by decide, square_map_idempotent 4 13 9 (by decide)⟩

/-- C7: two in-bounds pixels lying in the same square tile (equal
truncated quotients on both axes) receive the same output color from
`square_pixelisation`. -/
theorem square_same_tile_same_color (img : Image) (radius x1 y1 x2 y2 : ℕ)
    (h : 1 ≤ radius)
    (hx1 : x1 < img.width) (hy1 : y1 < img.height)
    (hx2 : x2 < img.width) (hy2 : y2 < img.height)
    (hfx : x1 / radius = x2 / radius) (hfy : y1 / radius = y2 / radius) :
    (square_pixelisation img radius).pixel x1 y1
      = (square_pixelisation img radius).pixel x2 y2 := by
  simp only [square_pixelisation, squareMap, hfx, hfy]

theorem square_same_tile_same_color_witness :
    1 ≤ 2 ∧ (5 : ℕ) < 8 ∧ (Image.pixel (square_pixelisation ⟨8, 8, fun a b => a + 100 * b⟩ 2) 4 6
      = Image.pixel (square_pixelisation ⟨8, 8, fun a b => a + 100 * b⟩ 2) 5 7) :=
  ⟨by decide, by decide,
    square_same_tile_same_color ⟨8, 8, fun a b => a + 100 * b⟩ 2 4 6 5 7
      (by decide) (by decide) (by decide) (by decide) (by decide) (by decide) (by decide)⟩

lemma wadd_one_mod_two (n : ℕ) : wadd n 1 % 2 = (n + 1) % 2 :=
  Nat.mod_mod_of_dvd (n + 1) (by norm_num [M32])

/-- C5: each of the two candidate grid positions computed by the
hexagonal tiler has a column index and a row index of equal parity. -/
theorem hex_candidates_same_parity (r g x y : ℕ) (hr : 0 < r) (hg : 0 < g) :
    (hexCandidates r g x y).1.1 % 2 = (hexCandidates r g x y).1.2 % 2 ∧
    (hexCandidates r g x y).2.1 % 2 = (hexCandidates r g x y).2.2 % 2 := by
  unfold hexCandidates
  by_cases h1 : x / r % 2 = 0 <;> by_cases h2 : y / g % 2 = 0 <;>
    simp [h1, h2, wadd_one_mod_two] <;> omega

theorem hex_candidates_same_parity_witness :
    0 < 3 ∧ ((hexCandidates 3 5 10 11).1.1 % 2 = (hexCandidates 3 5 10 11).1.2 % 2 ∧
      (hexCandidates 3 5 10 11).2.1 % 2 = (hexCandidates 3 5 10 11).2.2 % 2) :=
  ⟨by decide, hex_candidates_same_parity 3 5 10 11 (by decide) (by decide)⟩

/-- C9: when the two computed squared distances are exactly equal, the
strict comparison `d1 < d2` fails and the tiler selects `corner_b`. -/
theorem hex_tie_selects_corner_b (r g x y : ℕ)
    (h : (hexDistances r g x y).1 = (hexDistances r g x y).2) :
    hexSelected r g x y = (hexCorners r g x y).2 := by
  unfold hexSelected
  rw [h]
  simp

theorem hex_tie_selects_corner_b_witness :
    (hexDistances 2 2 1 1).1 = (hexDistances 2 2 1 1).2 ∧
      hexSelected 2 2 1 1 = (hexCorners 2 2 1 1).2 :=
  ⟨by decide, hex_tie_selects_corner_b 2 2 1 1 (by decide)⟩

/-- C2: the program has no `InvalidRadius` precondition check.  With
radius 0 both the truncated inner radius and the gap are 0, and on a
1x1 image the per-pixel computation itself hits the zero divisor
(modelled by `none`, a division-by-zero panic inside the loop) instead
of an error raised before pixel processing. -/
theorem hex_zero_radius_no_early_error :
    hexagon_pixelisation ⟨1, 1, fun _ _ => 0⟩ 0 0 = none := rfl

/-- C3 counterexample: radius 1 truncates to inner radius 0 and gap 1,
and the per-pixel computation on a 1x1 image does not complete (it
panics on division by zero) even though the radius is at least 1 and
the pixel is in bounds. -/
theorem hex_radius_one_pixel_incomplete :
    hexPoint 0 1 ⟨1, 1, fun _ _ => 7⟩ (0, 0) = none := rfl

/-- C6 counterexample: on a 1x1 image in hex mode with radius 1 (inner
radius 0, gap 1) the program panics with a division by zero instead of
returning the image unchanged. -/
theorem one_by_one_hex_radius_one_fails :
    hexagon_pixelisation ⟨1, 1, fun _ _ => 7⟩ 0 1 = none := rfl

lemma hexPoint_eq_some (r g : ℕ) (img : Image) (hr : 0 < r) (hg : 0 < g) (p : ℕ × ℕ) :
    hexPoint r g img p = some ⟨p.1, p.2, hexPixelColor r g img p.1 p.2⟩ := by
  unfold hexPoint
  rw [if_neg]
  push_neg
  exact ⟨hr.ne', hg.ne'⟩

/-- C3 (amended): as soon as the truncated inner radius and gap are
both non-zero (the case for every radius at least 2), every per-pixel
computation completes and the clamped sampling coordinate is strictly
inside `[0, W) x [0, H)`. -/
theorem hex_sample_in_bounds (r g : ℕ) (img : Image) (x y : ℕ)
    (hr : 0 < r) (hg : 0 < g) (hW : 0 < img.width) (hH : 0 < img.height)
    (hx : x < img.width) (hy : y < img.height) :
    (hexSampleCoord r g img.width img.height x y).1 < img.width ∧
    (hexSampleCoord r g img.width img.height x y).2 < img.height ∧
    (hexPoint r g img (x, y)).isSome := by
  refine ⟨?_, ?_, ?_⟩
  · exact lt_of_le_of_lt (min_le_right _ _) (by omega)
  · exact lt_of_le_of_lt (min_le_right _ _) (by omega)
  · rw [hexPoint_eq_some r g img hr hg]
    rfl

theorem hex_sample_in_bounds_witness :
    0 < 1 ∧ ((hexSampleCoord 1 1 1 1 0 0).1 < 1 ∧ (hexSampleCoord 1 1 1 1 0 0).2 < 1 ∧
      (hexPoint 1 1 ⟨1, 1, fun _ _ => 5⟩ (0, 0)).isSome) :=
  ⟨by decide, hex_sample_in_bounds 1 1 ⟨1, 1, fun _ _ => 5⟩ 0 0
    (by decide) (by decide) (by decide) (by decide) (by decide) (by decide)⟩

lemma mapM_loop_eq {α β : Type} (f : α → Option β) (gg : α → β) (l : List α) (acc : List β)
    (h : ∀ a ∈ l, f a = some (gg a)) :
    List.mapM.loop f l acc = some (acc.reverse ++ l.map gg) := by
  induction l generalizing acc with
  | nil => simp [List.mapM.loop]
  | cons a l ih =>
    have ha : f a = some (gg a) := h a (by simp)
    simp only [List.mapM.loop, ha, Option.bind_eq_bind, Option.some_bind]
    rw [ih (gg a :: acc) (fun b hb => h b (by simp [hb]))]
    simp

lemma mapM_eq_map_of_some {α β : Type} (f : α → Option β) (gg : α → β) (l : List α)
    (h : ∀ a ∈ l, f a = some (gg a)) :
    l.mapM f = some (l.map gg) := by
  rw [show l.mapM f = List.mapM.loop f l [] from rfl, mapM_loop_eq f gg l [] h]
  simp

lemma coordinates_succ (w h : ℕ) :
    coordinates (w + 1) h = coordinates w h ++ (List.range h).map (fun y => (w, y)) := by
  unfold coordinates
  simp [List.range_succ]

lemma coordinates_length (w h : ℕ) : (coordinates w h).length = w * h := by
  induction w with
  | zero => simp [coordinates]
  | succ w ih => rw [coordinates_succ]; simp [ih, Nat.succ_mul]

lemma coordinates_getElem (w h x y : ℕ) (hx : x < w) (hy : y < h) :
    (coordinates w h)[x * h + y]? = some (x, y) := by
  induction w with
  | zero => omega
  | succ w ih =>
    rw [coordinates_succ]
    rcases Nat.lt_succ_iff_lt_or_eq.mp hx with h1 | rfl
    · have hlen : x * h + y < (coordinates w h).length := by
        rw [coordinates_length]
        calc x * h + y < x * h + h := by omega
        _ = (x + 1) * h := by ring
        _ ≤ w * h := Nat.mul_le_mul_right h h1
      rw [List.getElem?_append, if_pos hlen, ih h1]
    · rw [List.getElem?_append, if_neg (by rw [coordinates_length]; omega)]
      rw [coordinates_length]
      rw [show x * h + y - x * h = y from by omega]
      rw [List.getElem?_map, List.getElem?_range hy]
      rfl

lemma pixels_getD {β : Type} (w h x y : ℕ) (pf : ℕ × ℕ → β) (d : β) (hx : x < w) (hy : y < h) :
    ((coordinates w h).map pf).getD (x * h + y) d = pf (x, y) := by
  rw [List.getD_eq_getElem?_getD, List.getElem?_map, coordinates_getElem w h x y hx hy]
  rfl

lemma hexagon_pixelisation_eq_some (img : Image) (r g : ℕ) (hr : 0 < r) (hg : 0 < g) :
    hexagon_pixelisation img r g = some
      { width := img.width
        height := img.height
        pixel := fun x y =>
          (((coordinates img.width img.height).map
              (fun p => (⟨p.1, p.2, hexPixelColor r g img p.1 p.2⟩ : ColoredPoint))).getD
            ((y + x * img.height) % M32) ⟨0, 0, 0⟩).color } := by
  unfold hexagon_pixelisation
  rw [mapM_eq_map_of_some _ _ _ (fun p _ => hexPoint_eq_some r g img hr hg p)]
  rfl

lemma hex_output_pixel (img : Image) (r g x y : ℕ) (hx : x < img.width) (hy : y < img.height)
    (hwh : img.width * img.height ≤ M32) :
    (((coordinates img.width img.height).map
        (fun p => (⟨p.1, p.2, hexPixelColor r g img p.1 p.2⟩ : ColoredPoint))).getD
      ((y + x * img.height) % M32) ⟨0, 0, 0⟩).color = hexPixelColor r g img x y := by
  have hidx : y + x * img.height < M32 := by
    calc y + x * img.height < img.height + x * img.height := Nat.add_lt_add_right hy _
    _ = (x + 1) * img.height := by ring
    _ ≤ img.width * img.height := Nat.mul_le_mul_right _ hx
    _ ≤ M32 := hwh
  rw [Nat.mod_eq_of_lt hidx, Nat.add_comm y (x * img.height),
    pixels_getD img.width img.height x y _ _ hx hy]

/-- C10: the output of `hexagon_pixelisation` at an in-bounds coordinate
`(x, y)` is exactly `hexPixelColor r g img x y`, a pure function of the
coordinate, the radius parameters and the source image alone: the
coordinate list is column-major, and the reassembly index
`y + x * height` recovers precisely the list entry produced for
`(x, y)`, so any two runs agree pixel for pixel. -/
theorem hex_output_depends_only_on_inputs (img : Image) (r g x y : ℕ)
    (hr : 0 < r) (hg : 0 < g) (hx : x < img.width) (hy : y < img.height)
    (hwh : img.width * img.height ≤ M32) :
    ∃ out, hexagon_pixelisation img r g = some out ∧
      out.pixel x y = hexPixelColor r g img x y :=
  ⟨_, hexagon_pixelisation_eq_some img r g hr hg, hex_output_pixel img r g x y hx hy hwh⟩

theorem hex_output_depends_only_on_inputs_witness :
    0 < 1 ∧ (2 : ℕ) * 2 ≤ M32 ∧
      (∃ out, hexagon_pixelisation ⟨2, 2, fun a b => a + 10 * b⟩ 1 1 = some out ∧
        out.pixel 1 1 = hexPixelColor 1 1 ⟨2, 2, fun a b => a + 10 * b⟩ 1 1) :=
  ⟨by decide, by decide,
    hex_output_depends_only_on_inputs ⟨2, 2, fun a b => a + 10 * b⟩ 1 1 1 1
      (by decide) (by decide) (by decide) (by decide) (by decide)⟩

/-- C6 (amended): a 1x1 image is returned unchanged by the square tiler
for every radius at least 1, and by the hexagonal tiler for every radius
whose truncated inner radius and gap are both non-zero (every radius at
least 2); with radius 0 or 1 the hexagonal tiler instead panics on a
zero divisor. -/
theorem one_by_one_identity (img : Image) (radius r g : ℕ)
    (hW : img.width = 1) (hH : img.height = 1) (hrad : 1 ≤ radius)
    (hr : 0 < r) (hg : 0 < g) :
    Image.EqOn (square_pixelisation img radius) img ∧
    ∃ out, hexagon_pixelisation img r g = some out ∧ Image.EqOn out img := by
  constructor
  · refine ⟨rfl, rfl, ?_⟩
    intro x y hx hy
    rw [hW] at hx
    rw [hH] at hy
    have hx0 : x = 0 := by omega
    have hy0 : y = 0 := by omega
    subst hx0
    subst hy0
    simp [square_pixelisation, squareMap]
  · refine ⟨_, hexagon_pixelisation_eq_some img r g hr hg, rfl, rfl, ?_⟩
    intro x y hx hy
    rw [hW] at hx
    rw [hH] at hy
    have hx0 : x = 0 := by omega
    have hy0 : y = 0 := by omega
    subst hx0
    subst hy0
    have h1 := hex_output_pixel img r g 0 0 (by omega) (by omega)
      (by rw [hW, hH]; norm_num [M32])
    have h2 : hexPixelColor r g img 0 0 = img.pixel 0 0 := by
      unfold hexPixelColor hexSampleCoord
      rw [hW, hH]
      simp
    exact h1.trans h2

theorem one_by_one_identity_witness :
    (Image.width ⟨1, 1, fun _ _ => 42⟩ = 1) ∧ (1 : ℕ) ≤ 5 ∧
      (Image.EqOn (square_pixelisation ⟨1, 1, fun _ _ => 42⟩ 5) ⟨1, 1, fun _ _ => 42⟩ ∧
        ∃ out, hexagon_pixelisation ⟨1, 1, fun _ _ => 42⟩ 1 2 = some out ∧
          Image.EqOn out ⟨1, 1, fun _ _ => 42⟩) :=
  ⟨rfl, by decide,
    one_by_one_identity ⟨1, 1, fun _ _ => 42⟩ 5 1 2 rfl rfl
      (by decide) (by decide) (by decide)⟩

lemma wsub_cast (a b : ℕ) : ((wsub a b : ℕ) : ℤ) = ((a : ℤ) - b) % M32 := by
  simp only [wsub, M32]
  omega

lemma wmul_cast (a b : ℕ) : ((wmul a b : ℕ) : ℤ) = ((a : ℤ) * b) % M32 := by
  simp only [wmul, M32]
  push_cast
  ring_nf

lemma wadd_cast (a b : ℕ) : ((wadd a b : ℕ) : ℤ) = ((a : ℤ) + b) % M32 := by
  simp only [wadd, M32]
  omega

lemma wsqr_wsub_cast (a b : ℕ) : ((wsqr (wsub a b) : ℕ) : ℤ) = (((a : ℤ) - b) ^ 2) % M32 := by
  simp only [wsqr]
  rw [wmul_cast, wsub_cast, ← Int.mul_emod]
  congr 1
  ring

/-- Wrapping arithmetic identity: `sqr!(c * s - v)` computed in `u32`
agrees, modulo 2^32, with the true squared offset `(c * s - v)^2`. -/
lemma term_cast (c s v : ℕ) :
    ((wsqr (wsub (wmul c s) v) : ℕ) : ℤ) = ((((c * s : ℕ) : ℤ) - v) ^ 2) % M32 := by
  rw [wsqr_wsub_cast]
  have h1 : ((wmul c s : ℕ) : ℤ) ≡ ((c * s : ℕ) : ℤ) [ZMOD (M32 : ℕ)] := by
    rw [wmul_cast]
    have : ((c * s : ℕ) : ℤ) % M32 ≡ ((c * s : ℕ) : ℤ) [ZMOD (M32 : ℕ)] :=
      Int.emod_emod_of_dvd _ dvd_rfl
    calc ((c : ℤ) * s) % M32 = ((c * s : ℕ) : ℤ) % M32 := by push_cast; ring_nf
    _ ≡ ((c * s : ℕ) : ℤ) [ZMOD (M32 : ℕ)] := this
  exact (((h1.sub_right (v : ℤ)).pow 2))

/-- When the two true squared offsets are bounded by `r` and `g` and
`r^2 + g^2 < 2^32`, the wrapped `u32` distance equals the true one. -/
lemma hexDistTerm_eq (r g x y c1 c2 : ℕ)
    (h1 : ((((c1 * r : ℕ) : ℤ)) - x).natAbs ≤ r)
    (h2 : ((((c2 * g : ℕ) : ℤ)) - y).natAbs ≤ g)
    (hb : r * r + g * g < M32) :
    ((wadd (wsqr (wsub (wmul c1 r) x)) (wsqr (wsub (wmul c2 g) y)) : ℕ) : ℤ)
      = (((c1 * r : ℕ) : ℤ) - x) ^ 2 + (((c2 * g : ℕ) : ℤ) - y) ^ 2 := by
  rw [wadd_cast, term_cast, term_cast, ← Int.add_emod]
  apply Int.emod_eq_of_lt
  · positivity
  · have e1 : (((c1 * r : ℕ) : ℤ) - x) ^ 2 ≤ ((r : ℤ)) ^ 2 := by
      rw [← Int.natAbs_sq ((((c1 * r : ℕ) : ℤ)) - x)]
      have : (((((c1 * r : ℕ) : ℤ)) - x).natAbs : ℤ) ≤ (r : ℤ) := by exact_mod_cast h1
      exact pow_le_pow_left₀ (by positivity) this 2
    have e2 : (((c2 * g : ℕ) : ℤ) - y) ^ 2 ≤ ((g : ℤ)) ^ 2 := by
      rw [← Int.natAbs_sq ((((c2 * g : ℕ) : ℤ)) - y)]
      have : (((((c2 * g : ℕ) : ℤ)) - y).natAbs : ℤ) ≤ (g : ℤ) := by exact_mod_cast h2
      exact pow_le_pow_left₀ (by positivity) this 2
    have hb2 : (r : ℤ) * r + g * g < (M32 : ℕ) := by exact_mod_cast hb
    nlinarith

/-- The low bracketing index `v / s` puts its center within `s` of `v`. -/
lemma low_off (s v : ℕ) (hs : 0 < s) : (((v / s * s : ℕ) : ℤ) - v).natAbs ≤ s := by
  have key : ∀ q m : ℕ, m < s → (((q * s : ℕ) : ℤ) - ((s * q + m : ℕ) : ℤ)).natAbs ≤ s := by
    intro q m hm
    have h3 : (((q * s : ℕ) : ℤ) - ((s * q + m : ℕ) : ℤ)) = -(m : ℤ) := by
      push_cast
      ring
    rw [h3]
    omega
  have h4 := key (v / s) (v % s) (Nat.mod_lt v hs)
  rwa [Nat.div_add_mod v s] at h4

/-- The high bracketing index `v / s + 1` puts its center within `s` of
`v`, provided the `u32` increment does not wrap. -/
lemma high_off (s v : ℕ) (hs : 0 < s) (hv : v + 1 < M32) :
    (((wadd (v / s) 1 * s : ℕ) : ℤ) - v).natAbs ≤ s := by
  have hlt : v / s + 1 < M32 := lt_of_le_of_lt (by have := Nat.div_le_self v s; omega) hv
  have hw : wadd (v / s) 1 = v / s + 1 := by
    simp only [wadd]
    exact Nat.mod_eq_of_lt hlt
  rw [hw]
  have key : ∀ q m : ℕ, m < s →
      ((((q + 1) * s : ℕ) : ℤ) - ((s * q + m : ℕ) : ℤ)).natAbs ≤ s := by
    intro q m hm
    have h3 : ((((q + 1) * s : ℕ) : ℤ) - ((s * q + m : ℕ) : ℤ)) = (s : ℤ) - (m : ℤ) := by
      push_cast
      ring
    rw [h3]
    omega
  have h4 := key (v / s) (v % s) (Nat.mod_lt v hs)
  rwa [Nat.div_add_mod v s] at h4

lemma hexCandidates_cases (r g x y : ℕ) :
    hexCandidates r g x y = ((x / r, y / g), (wadd (x / r) 1, wadd (y / g) 1)) ∨
    hexCandidates r g x y = ((x / r, wadd (y / g) 1), (wadd (x / r) 1, y / g)) := by
  unfold hexCandidates
  split
  · left
    rfl
  · right
    rfl

lemma hexDistances_eq_true (r g x y : ℕ) (hr : 0 < r) (hg : 0 < g)
    (hx : x + 1 < M32) (hy : y + 1 < M32) (hb : r * r + g * g < M32) :
    ((hexDistances r g x y).1 : ℤ) = trueSqDist r g x y (hexCandidates r g x y).1 ∧
    ((hexDistances r g x y).2 : ℤ) = trueSqDist r g x y (hexCandidates r g x y).2 := by
  rcases hexCandidates_cases r g x y with hc | hc
  · simp only [hexDistances, hexCorners, trueSqDist, hc]
    exact ⟨hexDistTerm_eq r g x y _ _ (low_off r x hr) (low_off g y hg) hb,
      hexDistTerm_eq r g x y _ _ (high_off r x hr hx) (high_off g y hg hy) hb⟩
  · simp only [hexDistances, hexCorners, trueSqDist, hc]
    exact ⟨hexDistTerm_eq r g x y _ _ (low_off r x hr) (high_off g y hg hy) hb,
      hexDistTerm_eq r g x y _ _ (high_off r x hr hx) (low_off g y hg) hb⟩

/-- C1 (amended): whenever `inner_radius^2 + gap^2 < 2^32` (every radius
below roughly 37838) the wrapped unsigned comparison agrees with the
true sign-correct geometry: the tiler selects the candidate whose true
squared Euclidean distance to the pixel is strictly smaller. -/
theorem hex_select_true_nearest (r g x y : ℕ) (hr : 0 < r) (hg : 0 < g)
    (hx : x + 1 < M32) (hy : y + 1 < M32) (hb : r * r + g * g < M32) :
    (trueSqDist r g x y (hexCandidates r g x y).1 < trueSqDist r g x y (hexCandidates r g x y).2 →
      hexSelected r g x y = (hexCorners r g x y).1) ∧
    (trueSqDist r g x y (hexCandidates r g x y).2 < trueSqDist r g x y (hexCandidates r g x y).1 →
      hexSelected r g x y = (hexCorners r g x y).2) := by
  have key := hexDistances_eq_true r g x y hr hg hx hy hb
  constructor
  · intro h
    have h1 : ((hexDistances r g x y).1 : ℤ) < ((hexDistances r g x y).2 : ℤ) := by
      rw [key.1, key.2]
      exact h
    have hlt : (hexDistances r g x y).1 < (hexDistances r g x y).2 := by exact_mod_cast h1
    unfold hexSelected
    rw [if_pos hlt]
  · intro h
    have h1 : ((hexDistances r g x y).2 : ℤ) < ((hexDistances r g x y).1 : ℤ) := by
      rw [key.1, key.2]
      exact h
    have hlt : (hexDistances r g x y).2 < (hexDistances r g x y).1 := by exact_mod_cast h1
    unfold hexSelected
    rw [if_neg (by omega)]

theorem hex_select_true_nearest_witness :
    0 < (2 : ℕ) ∧ 0 < (3 : ℕ) ∧ (5 : ℕ) + 1 < M32 ∧ (7 : ℕ) + 1 < M32 ∧
    (2 : ℕ) * 2 + 3 * 3 < M32 ∧
    ((trueSqDist 2 3 5 7 (hexCandidates 2 3 5 7).1 < trueSqDist 2 3 5 7 (hexCandidates 2 3 5 7).2 →
        hexSelected 2 3 5 7 = (hexCorners 2 3 5 7).1) ∧
      (trueSqDist 2 3 5 7 (hexCandidates 2 3 5 7).2 < trueSqDist 2 3 5 7 (hexCandidates 2 3 5 7).1 →
        hexSelected 2 3 5 7 = (hexCorners 2 3 5 7).2)) :=
  ⟨by decide, by decide, by decide, by decide, by decide,
    hex_select_true_nearest 2 3 5 7 (by decide) (by decide) (by decide) (by decide) (by decide)⟩

/-- C1 counterexample: with inner radius 43301 and gap 75000 (the
truncations produced by outer radius 50000) at pixel `(0, 24000)`, the
first candidate is truly nearer, yet the wrapped unsigned `u32`
distances overflow 2^32 and the tiler selects the other candidate. -/
theorem hex_select_unsigned_counterexample :
    0 < (43301 : ℕ) ∧ 0 < (75000 : ℕ) ∧
    trueSqDist 43301 75000 0 24000 (hexCandidates 43301 75000 0 24000).1
      < trueSqDist 43301 75000 0 24000 (hexCandidates 43301 75000 0 24000).2 ∧
    hexSelected 43301 75000 0 24000 ≠ (hexCorners 43301 75000 0 24000).1 := by
  decide
